import Mathlib

/-!
Verification of the streaming sample-statistics library
(`tensorflow_probability/python/experimental/stats/sample_stats.py`).

Tensors are shallowly embedded as total functions from multi-indices
(lists of naturals) to exact rationals; a tensor of shape `s` is the
restriction of such a function to indices of length `s.length` that are
in bounds.  Shapes are threaded separately where the source reads them
off the tensor with `ps.shape`.  Broadcasting against an axis of size 1
(`tf.expand_dims` followed by an elementwise operation) is modelled by
erasing the inserted coordinate before indexing.  Exact rational
arithmetic stands in for floating point; the one place where IEEE
non-finiteness matters (`finalize` dividing by `num_samples - ddof`)
is modelled by a tagged division `fdiv` that marks division by zero as
a non-finite result.
-/

namespace SampleStats

abbrev Idx := List Nat

abbrev Shape := List Nat

abbrev Tensor := Idx → ℚ

/-- The all-zeros tensor (`tf.zeros`, any shape). -/
def tzeros : Tensor := fun _ => 0

/-- `tf.expand_dims(t, axis=k)` followed by broadcasting against an axis
of size `M` at position `k`: the value at an index is `t` at the index
with coordinate `k` removed. -/
def expandDims (k : Nat) (t : Tensor) : Tensor := fun ix => t (ix.eraseIdx k)

/-- The slice of `t` obtained by fixing coordinate `k` to `j`
(comes up when reducing along axis `k`). -/
def sliceAt (k j : Nat) (t : Tensor) : Tensor := fun ix => t (ix.insertIdx k j)

/-- `tf.reduce_sum(t, axis=k)` where axis `k` has size `M`. -/
def reduceSum (k M : Nat) (t : Tensor) : Tensor :=
  fun ix => ∑ j in Finset.range M, t (ix.insertIdx k j)

/-- `tf.math.reduce_mean(t, axis=k)` where axis `k` has size `M`. -/
def reduceMean (k M : Nat) (t : Tensor) : Tensor :=
  fun ix => reduceSum k M t ix / (M : ℚ)

/-- The first factor's index of `_batch_outer_product`'s einsum at output
index `ix`: batch part (first `r - e` coordinates) followed by the first
event block. `r` is the rank of the einsum operand, `e` = `event_ndims`. -/
def pIdx (e r : Nat) (ix : Idx) : Idx :=
  ix.take (r - e) ++ (ix.drop (r - e)).take e

/-- The second factor's index of `_batch_outer_product`'s einsum at output
index `ix`: batch part followed by the second event block. -/
def qIdx (e r : Nat) (ix : Idx) : Idx :=
  ix.take (r - e) ++ (ix.drop (r - e)).drop e

/-- `_batch_outer_product(target, event_ndims)` applied to an operand of
rank `r`: the semantics of `tf.einsum` on the generated formula
`...a..m,...n..z->...a..z` — the output at batch index `b` and event
index pair `(i, j)` is `target[b, i] * target[b, j]`.  The source builds
the formula from single-character labels, which is what limits
`event_ndims` to 13 there; the semantics itself is label-count free. -/
def batch_outer_product (e r : Nat) (t : Tensor) : Tensor :=
  fun ix => t (pIdx e r ix) * t (qIdx e r ix)

/-- `RunningCovarianceState` namedtuple: `num_samples` is the scalar
count tensor (kept in the accumulation dtype, hence a rational here). -/
structure RunningCovarianceState where
  num_samples : ℚ
  mean : Tensor
  sum_squared_residuals : Tensor

/-- Lines 64–73 of the source: the Pebay merge of previously accumulated
`state` with chunk statistics `(chunk_n, chunk_mean, chunk_ssr)`.
`e` is `event_ndims` and `r` the rank of `chunk_mean` (the einsum reads
it off the operand; here it is passed in). -/
def mergeCov (state : RunningCovarianceState) (chunk_n : ℚ)
    (chunk_mean chunk_ssr : Tensor) (e r : Nat) : RunningCovarianceState :=
  let new_n := state.num_samples + chunk_n
  let delta_mean : Tensor := fun ix => chunk_mean ix - state.mean ix
  let new_mean : Tensor := fun ix => state.mean ix + chunk_n * delta_mean ix / new_n
  let all_pairwise_deltas := batch_outer_product e r delta_mean
  let adj_factor := state.num_samples * chunk_n / (state.num_samples + chunk_n)
  { num_samples := new_n
    mean := new_mean
    sum_squared_residuals := fun ix =>
      state.sum_squared_residuals ix + chunk_ssr ix
        + adj_factor * all_pairwise_deltas ix }

/-- `_update_running_covariance(state, new_sample, event_ndims, dtype, axis)`.
`sampleShape` is the shape of `new_sample`, which the source reads with
`ps.shape(new_sample)`; the cast to `dtype` is the identity in the exact
model.  In the chunked branch the merge operates on tensors of rank
`sampleShape.length - 1` (the chunk axis has been reduced away); in the
unchunked branch on rank `sampleShape.length`. -/
def update_running_covariance (state : RunningCovarianceState) (new_sample : Tensor)
    (sampleShape : Shape) (event_ndims : Nat) (axis : Option Nat) :
    RunningCovarianceState :=
  match axis with
  | some k =>
      let M := sampleShape.getD k 0
      let chunk_n : ℚ := (M : ℚ)
      let chunk_mean := reduceMean k M new_sample
      let chunk_delta_mean : Tensor :=
        fun ix => new_sample ix - expandDims k chunk_mean ix
      let chunk_ssr :=
        reduceSum k M (batch_outer_product event_ndims sampleShape.length chunk_delta_mean)
      mergeCov state chunk_n chunk_mean chunk_ssr event_ndims (sampleShape.length - 1)
  | none =>
      mergeCov state 1 new_sample tzeros event_ndims sampleShape.length

/-- `RunningCovariance` configuration: the metadata fixed at
construction time (dtype is modelled away by the exact arithmetic). -/
structure RunningCovariance where
  shape : Shape
  event_ndims : Nat

/-- `RunningCovariance.__init__(shape, event_ndims, dtype)`:
`event_ndims = None` defaults to `len(shape)`; `event_ndims` larger than
`len(shape)` or than 13 raises `ValueError`.  A failed construction
yields no configuration object, so no state can be made from it. -/
def RunningCovariance.construct (shape : Shape) (event_ndims : Option Nat) :
    Except String RunningCovariance :=
  let e := event_ndims.getD shape.length
  if shape.length < e then
    Except.error "Cannot calculate cross-products for samples of this rank"
  else if 13 < e then
    Except.error "event_ndims over 13 not supported"
  else
    Except.ok { shape := shape, event_ndims := e }

/-- The shape the source gives `sum_squared_residuals` in `initialize`:
`self.shape + extra_ndims_shape` where `extra_ndims_shape` is `()` when
`event_ndims == 0` and `self.shape[-event_ndims:]` otherwise. -/
def RunningCovariance.initializeSSRShape (c : RunningCovariance) : Shape :=
  c.shape ++ (if c.event_ndims = 0 then [] else c.shape.drop (c.shape.length - c.event_ndims))

/-- `RunningCovariance.initialize()`: zero count, zero mean of shape
`self.shape`, zero sum of squared residuals of shape
`self.shape + extra_ndims_shape`. -/
def RunningCovariance.initialize (_c : RunningCovariance) : RunningCovarianceState :=
  { num_samples := 0, mean := fun _ => 0, sum_squared_residuals := fun _ => 0 }

/-- `RunningCovariance.update(state, new_sample, axis)`: delegates to
`_update_running_covariance` and repacks the namedtuple. -/
def RunningCovariance.update (c : RunningCovariance) (state : RunningCovarianceState)
    (new_sample : Tensor) (sampleShape : Shape) (axis : Option Nat) :
    RunningCovarianceState :=
  update_running_covariance state new_sample sampleShape c.event_ndims axis

/-- Result of a floating-point division, abstracted to what survives the
exact model: a division by zero is non-finite under IEEE-754 (`±inf` or
`NaN`), any other division of the finite values arising here is finite. -/
inductive FVal where
  | finite : ℚ → FVal
  | nonfinite : FVal
deriving DecidableEq

/-- Division as performed by the backend on finite operands: non-finite
exactly when the divisor is zero. -/
def fdiv (x y : ℚ) : FVal := if y = 0 then FVal.nonfinite else FVal.finite (x / y)

/-- `RunningCovariance.finalize(state, ddof)`:
`sum_squared_residuals / (num_samples - ddof)`, elementwise, with no
guard on the divisor. -/
def RunningCovariance.finalize (state : RunningCovarianceState) (ddof : ℚ) :
    Idx → FVal :=
  fun ix => fdiv (state.sum_squared_residuals ix) (state.num_samples - ddof)

/-- The spec's event shape: the last `event_ndims` entries of `shape`. -/
def specEventShape (shape : Shape) (event_ndims : Nat) : Shape :=
  shape.drop (shape.length - event_ndims)

/-- C6: `RunningCovariance` construction fails exactly when `event_ndims`
exceeds the rank of the configured shape or exceeds 13; within both
bounds it succeeds, and the configuration (prerequisite of any state)
records the given shape and `event_ndims`. -/
theorem C6_construct_validation (shape : Shape) (e : Nat) :
    ((∃ msg, RunningCovariance.construct shape (some e) = Except.error msg) ↔
      (shape.length < e ∨ 13 < e)) ∧
    ((∃ c, RunningCovariance.construct shape (some e) = Except.ok c) ↔
      (e ≤ shape.length ∧ e ≤ 13)) ∧
    (RunningCovariance.construct shape (some e) =
        Except.ok { shape := shape, event_ndims := e } ↔
      (e ≤ shape.length ∧ e ≤ 13)) := by
  unfold RunningCovariance.construct
  simp only [Option.getD_some]
  split_ifs with h1 h2 <;>
    constructor <;>
    simp_all <;>
    omega

/-- C10: constructing `RunningCovariance` with `event_ndims` omitted
(`None`) sets `event_ndims` to the rank of the configured shape, so
construction succeeds exactly when the rank is at most 13 (the rank
check is vacuous against itself). -/
theorem C10_default_event_ndims (shape : Shape) :
    RunningCovariance.construct shape none =
      (if shape.length ≤ 13 then
        Except.ok { shape := shape, event_ndims := shape.length }
      else
        Except.error "event_ndims over 13 not supported") := by
  unfold RunningCovariance.construct
  simp only [Option.getD_none]
  rw [if_neg (lt_irrefl shape.length)]
  by_cases h13 : shape.length ≤ 13
  · rw [if_neg (by omega), if_pos h13]
  · rw [if_pos (by omega), if_neg h13]

/-- C9: `initialize()` yields `num_samples = 0`, an everywhere-zero mean
(of the configured shape) and an everywhere-zero sum of squared
residuals, whose recorded shape is the configured shape concatenated
with the event shape (the last `event_ndims` entries of the shape),
including when `event_ndims = 0`. -/
theorem C9_initialize (c : RunningCovariance) :
    c.initialize.num_samples = 0 ∧
    (∀ ix, c.initialize.mean ix = 0) ∧
    (∀ ix, c.initialize.sum_squared_residuals ix = 0) ∧
    c.initializeSSRShape = c.shape ++ specEventShape c.shape c.event_ndims := by
  refine ⟨rfl, fun _ => rfl, fun _ => rfl, ?_⟩
  unfold RunningCovariance.initializeSSRShape specEventShape
  by_cases h : c.event_ndims = 0
  · simp [h]
  · simp [h]

/-- The chunk count the spec assigns to an update:
`size(new_sample, k)` in chunked mode, 1 otherwise. -/
def spec_chunkN (sampleShape : Shape) (axis : Option Nat) : ℚ :=
  match axis with
  | none => 1
  | some k => ((sampleShape.getD k 0 : Nat) : ℚ)

/-- The spec's description of `update` (chunk statistics of both modes
followed by the shared merge formulas), written from the spec text for
comparison with the source translation `update_running_covariance`. -/
def spec_update_running_covariance (state : RunningCovarianceState)
    (new_sample : Tensor) (sampleShape : Shape) (e : Nat) (axis : Option Nat) :
    RunningCovarianceState :=
  let chunk_n := spec_chunkN sampleShape axis
  let chunk_mean : Tensor :=
    match axis with
    | none => new_sample
    | some k => reduceMean k (sampleShape.getD k 0) new_sample
  let chunk_ssr : Tensor :=
    match axis with
    | none => tzeros
    | some k =>
        reduceSum k (sampleShape.getD k 0)
          (batch_outer_product e sampleShape.length
            (fun ix => new_sample ix - expandDims k chunk_mean ix))
  let r := match axis with
    | none => sampleShape.length
    | some _ => sampleShape.length - 1
  let new_n := state.num_samples + chunk_n
  { num_samples := new_n
    mean := fun ix => state.mean ix + chunk_n * (chunk_mean ix - state.mean ix) / new_n
    sum_squared_residuals := fun ix =>
      state.sum_squared_residuals ix + chunk_ssr ix
        + (state.num_samples * chunk_n / new_n) *
            batch_outer_product e r (fun w => chunk_mean w - state.mean w) ix }

/-- C1: `_update_running_covariance` returns exactly the state the spec
prescribes — the two-mode chunk statistics (unchunked: `chunk_n = 1`,
`chunk_mean` the sample, zero chunk residuals; chunked: count, mean and
summed outer products of residuals along the chunk axis) combined by the
shared merge formulas for `new_n`, `new_mean` and `new_ssr`. -/
theorem C1_update_matches_spec (state : RunningCovarianceState)
    (new_sample : Tensor) (sampleShape : Shape) (e : Nat) (axis : Option Nat) :
    update_running_covariance state new_sample sampleShape e axis =
      spec_update_running_covariance state new_sample sampleShape e axis := by
  cases axis <;> rfl

/-- C3: the outer-product operator, at any output index decomposed as
batch part `b` (of the operand's batch rank) and event multi-indices
`i, j` (of length `event_ndims` each), yields the plain product
`target[b, i] * target[b, j]` — no summation occurs — and for
`event_ndims = 0` it is the elementwise square of the operand. -/
theorem C3_batch_outer_product (e : Nat) (he : e ≤ 13) (t : Tensor)
    (b i j : Idx) (hi : i.length = e) (hj : j.length = e) :
    batch_outer_product e (b.length + e) t (b ++ i ++ j) =
      t (b ++ i) * t (b ++ j) ∧
    (∀ w : Idx, batch_outer_product 0 w.length t w = t w * t w) := by
  constructor
  · unfold batch_outer_product pIdx qIdx
    rw [List.append_assoc, Nat.add_sub_cancel, List.take_left, List.drop_left,
      List.take_left' hi, List.drop_left' hi]
  · intro w
    unfold batch_outer_product pIdx qIdx
    simp

/-- A sample tensor reading off the head of the index. -/
def headT : Tensor := fun ix => ((ix.headD 0 : Nat) : ℚ)

/-- Witness for C3 at `event_ndims = 1`, batch rank 0. -/
theorem C3_batch_outer_product_witness :
    batch_outer_product 1 (List.length ([] : Idx) + 1) headT ([] ++ [0] ++ [1]) =
      headT ([] ++ [0]) * headT ([] ++ [1]) ∧
    (∀ w : Idx, batch_outer_product 0 w.length headT w = headT w * headT w) :=
  C3_batch_outer_product 1 (by decide) headT [] [0] [1] (by decide) (by decide)

/-- A rank-1 tensor holding the entries of `l`. -/
def vecT (l : List ℚ) : Tensor :=
  fun ix =>
    match ix with
    | [k] => l.getD k 0
    | _ => 0

/-- The C4 configuration: `RunningCovariance(shape=(2,), event_ndims=1)`. -/
def c4Config : RunningCovariance := { shape := [2], event_ndims := 1 }

/-- The three C4 samples `[1,0]`, `[0,1]`, `[1,1]`. -/
def c4Samples : List Tensor := [vecT [1, 0], vecT [0, 1], vecT [1, 1]]

/-- The state after the three unchunked C4 updates from `initialize()`. -/
def c4State : RunningCovarianceState :=
  c4Samples.foldl (fun st x => c4Config.update st x [2] none) c4Config.initialize

/-- The direct batch mean of the C4 samples at component `k`. -/
def c4DirectMean (k : Nat) : ℚ := (c4Samples.map (fun x => x [k])).sum / 3

/-- The direct batch covariance of the C4 samples:
entry `(i, j)` of `(Σ (x - mean) (x - mean)ᵀ) / 3`. -/
def c4DirectCov (i j : Nat) : ℚ :=
  (c4Samples.map
    (fun x => (x [i] - c4DirectMean i) * (x [j] - c4DirectMean j))).sum / 3

/-- C4: after the three unchunked updates, the finalized 2×2 covariance
matrix at `ddof = 0` equals the direct batch computation
`(Σ (x - mean) (x - mean)ᵀ) / 3` and is symmetric. -/
theorem C4_concrete_covariance :
    ∀ i j : Fin 2,
      RunningCovariance.finalize c4State 0 [i.val, j.val] =
        FVal.finite (c4DirectCov i.val j.val) ∧
      RunningCovariance.finalize c4State 0 [i.val, j.val] =
        RunningCovariance.finalize c4State 0 [j.val, i.val] := by
  intro i j
  fin_cases i <;> fin_cases j <;>
    · simp only [c4State, c4Config, c4Samples, RunningCovariance.update,
        RunningCovariance.initialize, update_running_covariance, mergeCov,
        batch_outer_product, pIdx, qIdx, tzeros, vecT, List.foldl,
        RunningCovariance.finalize, fdiv, c4DirectCov, c4DirectMean, List.map,
        List.sum, List.take, List.drop, List.getD, List.get?, Fin.isValue]
      norm_num

/-- The state `initialize()` yields for the scalar configuration. -/
def c5InitState : RunningCovarianceState :=
  RunningCovariance.initialize { shape := [], event_ndims := 0 }

/-- C5 counterexample: `num_samples = 0 ≤ 1 = ddof` is in the claimed
degenerate range, yet `finalize(initialize(), ddof=1)` divides zero by
`0 - 1 = -1` and yields the finite value 0, not a non-finite one. -/
theorem C5_counterexample :
    c5InitState.num_samples ≤ (1 : ℚ) ∧
    RunningCovariance.finalize c5InitState 1 [] = FVal.finite 0 := by
  constructor
  · norm_num [c5InitState, RunningCovariance.initialize]
  · simp only [c5InitState, RunningCovariance.initialize,
      RunningCovariance.finalize, fdiv]
    norm_num

/-- C5 (amended): `finalize` divides `sum_squared_residuals` by
`num_samples - ddof` with no guard; exactly when `num_samples = ddof`
(for example `finalize(initialize(), ddof=0)`, a 0/0 division) the
result is non-finite rather than an error, while for
`num_samples ≠ ddof` — including `num_samples < ddof` — every entry is
the finite quotient. -/
theorem C5_finalize_unguarded (state : RunningCovarianceState) (ddof : ℚ)
    (ix : Idx) :
    (state.num_samples = ddof →
      RunningCovariance.finalize state ddof ix = FVal.nonfinite) ∧
    (state.num_samples ≠ ddof →
      RunningCovariance.finalize state ddof ix =
        FVal.finite (state.sum_squared_residuals ix /
          (state.num_samples - ddof))) := by
  constructor
  · intro h
    simp [RunningCovariance.finalize, fdiv, sub_eq_zero, h]
  · intro h
    simp [RunningCovariance.finalize, fdiv, sub_eq_zero, h]

/-- Witness for C5: the 0/0 division of `finalize(initialize(), ddof=0)`
is non-finite, and `ddof = 1` on the same state is finite. -/
theorem C5_finalize_unguarded_witness :
    RunningCovariance.finalize c5InitState 0 [] = FVal.nonfinite ∧
    RunningCovariance.finalize c5InitState 1 [] =
      FVal.finite (c5InitState.sum_squared_residuals [] /
        (c5InitState.num_samples - 1)) :=
  ⟨(C5_finalize_unguarded c5InitState 0 []).1 rfl,
   (C5_finalize_unguarded c5InitState 1 []).2 (by norm_num [c5InitState,
      RunningCovariance.initialize])⟩

/-! Scalar shadow of the covariance update.  At a fixed index `ix` of
`sum_squared_residuals`, the update only reads each sample at the two
einsum factor indices `pIdx e r ix` and `qIdx e r ix`; the whole tensor
recursion therefore projects onto a four-component scalar recursion
(count, mean at the two points, residual sum at `ix`). -/

/-- Projection of the covariance state at a residual index `ix`. -/
structure CovS where
  n : ℚ
  mp : ℚ
  mq : ℚ
  s : ℚ

/-- One unchunked update, seen through the projection: `chunk_n = 1`,
mean pulled toward the sample, residual bumped by the adjusted
pairwise-delta product. -/
def seqStepS (st : CovS) (ab : ℚ × ℚ) : CovS :=
  { n := st.n + 1
    mp := st.mp + 1 * (ab.1 - st.mp) / (st.n + 1)
    mq := st.mq + 1 * (ab.2 - st.mq) / (st.n + 1)
    s := st.s + 0 + st.n * 1 / (st.n + 1) * ((ab.1 - st.mp) * (ab.2 - st.mq)) }

/-- Sum of the first components of a chunk's projected samples. -/
def sFst (l : List (ℚ × ℚ)) : ℚ := (l.map Prod.fst).sum

/-- Sum of the second components. -/
def sSnd (l : List (ℚ × ℚ)) : ℚ := (l.map Prod.snd).sum

/-- Sum of the componentwise products. -/
def sProd (l : List (ℚ × ℚ)) : ℚ := (l.map (fun ab => ab.1 * ab.2)).sum

/-- Chunk mean of the first components. -/
def mFst (l : List (ℚ × ℚ)) : ℚ := sFst l / (l.length : ℚ)

/-- Chunk mean of the second components. -/
def mSnd (l : List (ℚ × ℚ)) : ℚ := sSnd l / (l.length : ℚ)

/-- The chunk's own summed residual products (both components centered
at the chunk mean). -/
def cProd (l : List (ℚ × ℚ)) : ℚ :=
  (l.map (fun ab => (ab.1 - mFst l) * (ab.2 - mSnd l))).sum

/-- One chunked update, seen through the projection. -/
def chunkStepS (st : CovS) (l : List (ℚ × ℚ)) : CovS :=
  { n := st.n + (l.length : ℚ)
    mp := st.mp + (l.length : ℚ) * (mFst l - st.mp) / (st.n + (l.length : ℚ))
    mq := st.mq + (l.length : ℚ) * (mSnd l - st.mq) / (st.n + (l.length : ℚ))
    s := st.s + cProd l
      + st.n * (l.length : ℚ) / (st.n + (l.length : ℚ)) *
          ((mFst l - st.mp) * (mSnd l - st.mq)) }

/-- Closed form of folding a chunk of raw sums `(sa, sb, sab)` and size
`M` into a state: count and means aggregate linearly, the residual sum
becomes total product sum minus the scaled product of totals. -/
def closedS (st : CovS) (sa sb sab M : ℚ) : CovS :=
  { n := st.n + M
    mp := (st.n * st.mp + sa) / (st.n + M)
    mq := (st.n * st.mq + sb) / (st.n + M)
    s := st.s + sab + st.n * st.mp * st.mq
      - (st.n * st.mp + sa) * (st.n * st.mq + sb) / (st.n + M) }

theorem sFst_cons (ab : ℚ × ℚ) (l : List (ℚ × ℚ)) : sFst (ab :: l) = ab.1 + sFst l := by
  simp [sFst]

theorem sSnd_cons (ab : ℚ × ℚ) (l : List (ℚ × ℚ)) : sSnd (ab :: l) = ab.2 + sSnd l := by
  simp [sSnd]

theorem sProd_cons (ab : ℚ × ℚ) (l : List (ℚ × ℚ)) :
    sProd (ab :: l) = ab.1 * ab.2 + sProd l := by
  simp [sProd]

theorem sum_shifted (l : List (ℚ × ℚ)) (x y : ℚ) :
    (l.map (fun ab => (ab.1 - x) * (ab.2 - y))).sum =
      sProd l - y * sFst l - x * sSnd l + (l.length : ℚ) * (x * y) := by
  induction l with
  | nil => simp [sProd, sFst, sSnd]
  | cons hd tl ih =>
      simp only [List.map_cons, List.sum_cons, List.length_cons, sProd_cons,
        sFst_cons, sSnd_cons]
      rw [ih]
      push_cast
      ring

theorem cProd_eq (l : List (ℚ × ℚ)) (hl : l ≠ []) :
    cProd l = sProd l - sFst l * sSnd l / (l.length : ℚ) := by
  have hM : ((l.length : ℚ)) ≠ 0 := by
    exact_mod_cast (List.length_pos.mpr hl).ne'
  unfold cProd mFst mSnd
  rw [sum_shifted]
  field_simp
  ring

theorem seqStepS_eq_closed (st : CovS) (ab : ℚ × ℚ) (hn : 0 ≤ st.n) :
    seqStepS st ab = closedS st ab.1 ab.2 (ab.1 * ab.2) 1 := by
  obtain ⟨a, b⟩ := ab
  have h1 : st.n + 1 ≠ 0 := by positivity
  unfold seqStepS closedS
  simp only [CovS.mk.injEq]
  refine ⟨by ring, ?_, ?_, ?_⟩ <;> (field_simp; ring)

theorem closedS_seqStepS (st : CovS) (ab : ℚ × ℚ) (sa sb sab M : ℚ)
    (hn : 0 ≤ st.n) (hM : 0 ≤ M) :
    closedS (seqStepS st ab) sa sb sab M =
      closedS st (ab.1 + sa) (ab.2 + sb) (ab.1 * ab.2 + sab) (M + 1) := by
  obtain ⟨a, b⟩ := ab
  have h1 : st.n + 1 ≠ 0 := by positivity
  have h2 : st.n + 1 + M ≠ 0 := by positivity
  have h3 : st.n + (M + 1) ≠ 0 := by positivity
  unfold seqStepS closedS
  simp only [CovS.mk.injEq]
  refine ⟨by ring, ?_, ?_, ?_⟩ <;>
    (field_simp; ring)

theorem chunkStepS_eq_closed (st : CovS) (l : List (ℚ × ℚ)) (hn : 0 ≤ st.n)
    (hl : l ≠ []) :
    chunkStepS st l = closedS st (sFst l) (sSnd l) (sProd l) (l.length : ℚ) := by
  have hM : (0 : ℚ) < (l.length : ℚ) := by
    exact_mod_cast List.length_pos.mpr hl
  have hnM : st.n + (l.length : ℚ) ≠ 0 := by positivity
  unfold chunkStepS
  rw [cProd_eq l hl]
  unfold closedS mFst mSnd
  simp only [CovS.mk.injEq]
  refine ⟨by trivial, ?_, ?_, ?_⟩ <;>
    (field_simp; ring)

theorem foldl_seqStepS_eq_closed (l : List (ℚ × ℚ)) :
    ∀ st : CovS, 0 ≤ st.n → l ≠ [] →
      l.foldl seqStepS st = closedS st (sFst l) (sSnd l) (sProd l) (l.length : ℚ) := by
  induction l with
  | nil => exact fun st _ hl => absurd rfl hl
  | cons hd tl ih =>
      intro st hn _
      by_cases htl : tl = []
      · subst htl
        simp only [List.foldl_cons, List.foldl_nil, sFst_cons, sSnd_cons,
          sProd_cons, List.length_cons, List.length_nil]
        rw [seqStepS_eq_closed st hd hn]
        simp [sFst, sSnd, sProd]
      · have hn' : 0 ≤ (seqStepS st hd).n := by
          show 0 ≤ st.n + 1
          linarith
        simp only [List.foldl_cons]
        rw [ih (seqStepS st hd) hn' htl,
          closedS_seqStepS st hd _ _ _ _ hn (by positivity),
          sFst_cons, sSnd_cons, sProd_cons, List.length_cons]
        push_cast
        ring_nf

theorem chunkStepS_eq_foldl (st : CovS) (l : List (ℚ × ℚ)) (hn : 0 ≤ st.n)
    (hl : l ≠ []) : chunkStepS st l = l.foldl seqStepS st := by
  rw [chunkStepS_eq_closed st l hn hl, foldl_seqStepS_eq_closed l st hn hl]

theorem foldl_chunkStepS_eq_join (parts : List (List (ℚ × ℚ))) :
    ∀ st : CovS, 0 ≤ st.n → (∀ l ∈ parts, l ≠ []) →
      parts.foldl chunkStepS st = parts.flatten.foldl seqStepS st := by
  induction parts with
  | nil => intro st _ _; simp
  | cons hd tl ih =>
      intro st hn hne
      have hhd : hd ≠ [] := hne hd (List.mem_cons_self hd tl)
      have hn' : 0 ≤ (hd.foldl seqStepS st).n := by
        rw [foldl_seqStepS_eq_closed hd st hn hhd]
        show 0 ≤ st.n + (hd.length : ℚ)
        positivity
      simp only [List.foldl_cons, List.flatten_cons, List.foldl_append]
      rw [chunkStepS_eq_foldl st hd hn hhd]
      exact ih (hd.foldl seqStepS st) hn' (fun l hl => hne l (List.mem_cons_of_mem hd hl))

/-- `tf.stack` of a list of samples along a new leading axis: the
chunk tensor a caller builds to feed one chunked `update(axis=0)`. -/
def stack (c : List Tensor) : Tensor :=
  fun ix =>
    match ix with
    | [] => 0
    | j :: w => (c.getD j tzeros) w

/-- The samples of a chunk, each read at the two einsum factor indices
of a fixed residual index `ix` (rank `r`, `event_ndims` `e`). -/
def pairsAt (e r : Nat) (ix : Idx) (c : List Tensor) : List (ℚ × ℚ) :=
  c.map (fun t => (t (pIdx e r ix), t (qIdx e r ix)))

/-- Projection of a covariance state onto the scalar shadow at residual
index `ix`. -/
def covStateAt (e r : Nat) (ix : Idx) (st : RunningCovarianceState) : CovS :=
  { n := st.num_samples
    mp := st.mean (pIdx e r ix)
    mq := st.mean (qIdx e r ix)
    s := st.sum_squared_residuals ix }

theorem pIdx_succ_cons (e r : Nat) (he : e ≤ r) (j : Nat) (ix : Idx) :
    pIdx e (r + 1) (j :: ix) = j :: pIdx e r ix := by
  unfold pIdx
  rw [show r + 1 - e = (r - e) + 1 by omega]
  rw [List.take_succ_cons, List.drop_succ_cons, List.cons_append]

theorem qIdx_succ_cons (e r : Nat) (he : e ≤ r) (j : Nat) (ix : Idx) :
    qIdx e (r + 1) (j :: ix) = j :: qIdx e r ix := by
  unfold qIdx
  rw [show r + 1 - e = (r - e) + 1 by omega]
  rw [List.take_succ_cons, List.drop_succ_cons, List.cons_append]

theorem sum_range_getD {α : Type} (l : List α) (d : α) (g : α → ℚ) :
    ∑ j in Finset.range l.length, g (l.getD j d) = (l.map g).sum := by
  induction l with
  | nil => simp
  | cons hd tl ih =>
      rw [List.length_cons, Finset.sum_range_succ']
      simp only [List.getD_cons_succ, List.getD_cons_zero, List.map_cons,
        List.sum_cons]
      rw [ih]
      ring

theorem sum_stack_apply (c : List Tensor) (w : Idx) :
    ∑ j in Finset.range c.length, (c.getD j tzeros) w = (c.map (fun t => t w)).sum :=
  sum_range_getD c tzeros (fun t => t w)

theorem sum_stack_delta (c : List Tensor) (p q : Idx) (mp mq : ℚ) :
    ∑ j in Finset.range c.length,
        ((c.getD j tzeros) p - mp) * ((c.getD j tzeros) q - mq) =
      (c.map (fun t => (t p - mp) * (t q - mq))).sum :=
  sum_range_getD c tzeros (fun t => (t p - mp) * (t q - mq))

/-- One unchunked tensor update projects onto one scalar `seqStepS`. -/
theorem covStateAt_update_none (e : Nat) (s : Shape)
    (st : RunningCovarianceState) (x : Tensor) (ix : Idx) :
    covStateAt e s.length ix (update_running_covariance st x s e none) =
      seqStepS (covStateAt e s.length ix st)
        (x (pIdx e s.length ix), x (qIdx e s.length ix)) := rfl

/-- One chunked tensor update (chunk stacked on a new leading axis,
`axis = 0`) projects onto one scalar `chunkStepS`. -/
theorem covStateAt_update_chunked (e : Nat) (s : Shape) (he : e ≤ s.length)
    (st : RunningCovarianceState) (c : List Tensor) (ix : Idx) :
    covStateAt e s.length ix
        (update_running_covariance st (stack c) (c.length :: s) e (some 0)) =
      chunkStepS (covStateAt e s.length ix st) (pairsAt e s.length ix c) := by
  unfold update_running_covariance mergeCov covStateAt chunkStepS
  simp only [List.getD_cons_zero, List.length_cons, Nat.add_sub_cancel,
    reduceMean, reduceSum, batch_outer_product, expandDims, List.insertIdx_zero,
    pIdx_succ_cons e s.length he, qIdx_succ_cons e s.length he, stack,
    List.eraseIdx_cons_zero, sum_stack_apply, sum_stack_delta, pairsAt, mFst,
    mSnd, sFst, sSnd, cProd, List.map_map, Function.comp_def, List.length_map,
    CovS.mk.injEq]

/-- Folding unchunked updates projects onto folding `seqStepS` over the
projected samples. -/
theorem covRun_seq_at (e : Nat) (s : Shape) (xs : List Tensor) :
    ∀ (st : RunningCovarianceState) (ix : Idx),
      covStateAt e s.length ix
          (xs.foldl (fun acc x => update_running_covariance acc x s e none) st) =
        (xs.map (fun x => (x (pIdx e s.length ix), x (qIdx e s.length ix)))).foldl
          seqStepS (covStateAt e s.length ix st) := by
  induction xs with
  | nil => intro st ix; rfl
  | cons hd tl ih =>
      intro st ix
      simp only [List.foldl_cons, List.map_cons]
      rw [ih (update_running_covariance st hd s e none) ix,
        covStateAt_update_none]

/-- Folding chunked updates projects onto folding `chunkStepS` over the
projected chunks. -/
theorem covRun_chunked_at (e : Nat) (s : Shape) (he : e ≤ s.length)
    (cs : List (List Tensor)) :
    ∀ (st : RunningCovarianceState) (ix : Idx),
      covStateAt e s.length ix
          (cs.foldl (fun acc c =>
            update_running_covariance acc (stack c) (c.length :: s) e (some 0)) st) =
        (cs.map (pairsAt e s.length ix)).foldl chunkStepS
          (covStateAt e s.length ix st) := by
  induction cs with
  | nil => intro st ix; rfl
  | cons hd tl ih =>
      intro st ix
      simp only [List.foldl_cons, List.map_cons]
      rw [ih (update_running_covariance st (stack hd) (hd.length :: s) e (some 0)) ix,
        covStateAt_update_chunked e s he]

/-- A valid mean index `w` is recovered as the first einsum factor index
of the residual index `w ++ w.drop (r - e)`. -/
theorem pIdx_of_valid (e r : Nat) (he : e ≤ r) (w : Idx) (hw : w.length = r) :
    pIdx e r (w ++ w.drop (r - e)) = w := by
  unfold pIdx
  rw [List.take_append_eq_append_take, List.drop_append_eq_append_drop]
  rw [hw, show r - e - r = 0 by omega]
  simp only [List.take_zero, List.append_nil, List.drop_zero]
  rw [List.take_left' (by rw [List.length_drop, hw]; omega)]
  exact List.take_append_drop (r - e) w

/-- The sequential run of the spec: all samples one at a time through
unchunked `update`, from `initialize()`. -/
def covRunSeq (cfg : RunningCovariance) (xs : List Tensor) :
    RunningCovarianceState :=
  xs.foldl (fun st x => cfg.update st x cfg.shape none) cfg.initialize

/-- The chunked run: each chunk stacked along a new leading axis and fed
through one chunked `update(axis=0)`, from `initialize()`. -/
def covRunChunked (cfg : RunningCovariance) (chunks : List (List Tensor)) :
    RunningCovarianceState :=
  chunks.foldl (fun st c => cfg.update st (stack c) (c.length :: cfg.shape) (some 0))
    cfg.initialize

/-- C2: over exact arithmetic, for any partition of a sample sequence
into consecutive nonempty chunks, feeding each chunk through one chunked
update (stacked along a leading axis) from `initialize()` gives exactly
the state of feeding every sample through one-at-a-time unchunked
updates: equal counts, equal means at every valid index, and equal
sums of squared residuals everywhere. -/
theorem C2_chunk_invariance (cfg : RunningCovariance)
    (he : cfg.event_ndims ≤ cfg.shape.length)
    (chunks : List (List Tensor)) (hne : ∀ c ∈ chunks, c ≠ []) :
    (covRunChunked cfg chunks).num_samples =
      (covRunSeq cfg chunks.flatten).num_samples ∧
    (∀ w : Idx, w.length = cfg.shape.length →
      (covRunChunked cfg chunks).mean w = (covRunSeq cfg chunks.flatten).mean w) ∧
    (∀ ix : Idx,
      (covRunChunked cfg chunks).sum_squared_residuals ix =
        (covRunSeq cfg chunks.flatten).sum_squared_residuals ix) := by
  have key : ∀ ix : Idx,
      covStateAt cfg.event_ndims cfg.shape.length ix (covRunChunked cfg chunks) =
        covStateAt cfg.event_ndims cfg.shape.length ix
          (covRunSeq cfg chunks.flatten) := by
    intro ix
    have h1 := covRun_chunked_at cfg.event_ndims cfg.shape he chunks
      cfg.initialize ix
    have h2 := covRun_seq_at cfg.event_ndims cfg.shape chunks.flatten
      cfg.initialize ix
    have hn0 : 0 ≤ (covStateAt cfg.event_ndims cfg.shape.length ix
        cfg.initialize).n := le_refl 0
    have hne2 : ∀ l ∈ chunks.map (pairsAt cfg.event_ndims cfg.shape.length ix),
        l ≠ [] := by
      intro l hl
      obtain ⟨c, hc, rfl⟩ := List.mem_map.mp hl
      simp only [pairsAt, ne_eq, List.map_eq_nil_iff]
      exact hne c hc
    have h3 := foldl_chunkStepS_eq_join
      (chunks.map (pairsAt cfg.event_ndims cfg.shape.length ix))
      (covStateAt cfg.event_ndims cfg.shape.length ix cfg.initialize) hn0 hne2
    have h4 : (chunks.map (pairsAt cfg.event_ndims cfg.shape.length ix)).flatten =
        chunks.flatten.map (fun x =>
          (x (pIdx cfg.event_ndims cfg.shape.length ix),
           x (qIdx cfg.event_ndims cfg.shape.length ix))) :=
      (List.map_flatten _ chunks).symm
    rw [h4] at h3
    exact h1.trans (h3.trans h2.symm)
  refine ⟨congrArg CovS.n (key []), ?_, fun ix => congrArg CovS.s (key ix)⟩
  intro w hw
  have h := key (w ++ w.drop (cfg.shape.length - cfg.event_ndims))
  simp only [covStateAt, CovS.mk.injEq] at h
  obtain ⟨-, hmp, -, -⟩ := h
  rwa [pIdx_of_valid cfg.event_ndims cfg.shape.length he w hw] at hmp

/-- A constant scalar tensor. -/
def constT (a : ℚ) : Tensor := fun _ => a

/-- The C2 witness configuration: scalar variance. -/
def c2wCfg : RunningCovariance := { shape := [], event_ndims := 0 }

/-- The C2 witness partition: samples 1; 2, 3 grouped as one singleton
chunk followed by one chunk of two. -/
def c2wChunks : List (List Tensor) := [[constT 1], [constT 2, constT 3]]

/-- Witness for C2 on the concrete partition of three scalar samples. -/
theorem C2_chunk_invariance_witness :
    (covRunChunked c2wCfg c2wChunks).num_samples =
      (covRunSeq c2wCfg c2wChunks.flatten).num_samples ∧
    (∀ w : Idx, w.length = c2wCfg.shape.length →
      (covRunChunked c2wCfg c2wChunks).mean w =
        (covRunSeq c2wCfg c2wChunks.flatten).mean w) ∧
    (∀ ix : Idx,
      (covRunChunked c2wCfg c2wChunks).sum_squared_residuals ix =
        (covRunSeq c2wCfg c2wChunks.flatten).sum_squared_residuals ix) :=
  C2_chunk_invariance c2wCfg (Nat.le_refl 0) c2wChunks
    (by
      intro c hc
      simp only [c2wChunks, List.mem_cons, List.not_mem_nil, or_false] at hc
      rcases hc with rfl | rfl <;> simp)

/-! The expectations engine.  `tf.nest` structures (possibly nested
ordered collections of values) are modelled by a tagged tree with leaf
and sequence nodes, the "structural zip/map" of `tf.nest.map_structure`
and `nest.map_structure_up_to` by structural recursion on the tree.
Samples are a single tensor shared by every leaf (the source replicates
the one sample across the structure of `callables` in `_prepare_args`),
and the integral-to-float dtype coercion is the identity in the exact
model. -/

/-- A `tf.nest` structure: a value, or an ordered collection. -/
inductive Nest (α : Type) : Type where
  | leaf : α → Nest α
  | nil : Nest α
  | cons : Nest α → Nest α → Nest α

/-- `tf.nest.map_structure` with one structure argument. -/
def Nest.map {α β : Type} (f : α → β) : Nest α → Nest β
  | .leaf a => .leaf (f a)
  | .nil => .nil
  | .cons x y => .cons (Nest.map f x) (Nest.map f y)

/-- `nest.map_structure_up_to` with two structure arguments of matching
topology (on mismatched topologies the source raises; the junk value
returned here is never reached by the engine, which only zips trees
built from `callables` by `Nest.map`). -/
def Nest.map2 {α β γ : Type} (f : α → β → γ) : Nest α → Nest β → Nest γ
  | .leaf a, .leaf b => .leaf (f a b)
  | .cons x y, .cons u v => .cons (Nest.map2 f x u) (Nest.map2 f y v)
  | _, _ => .nil

/-- The topology of a nest, forgetting the leaf values. -/
def Nest.topo {α : Type} : Nest α → Nest Unit := Nest.map (fun _ => ())

/-- Every leaf of the nest satisfies `p`. -/
def Nest.All {α : Type} (p : α → Prop) : Nest α → Prop
  | .leaf a => p a
  | .nil => True
  | .cons x y => Nest.All p x ∧ Nest.All p y

theorem Nest.map2_congr {α β γ : Type} {f g : α → β → γ}
    (h : ∀ a b, f a b = g a b) :
    ∀ (x : Nest α) (y : Nest β), Nest.map2 f x y = Nest.map2 g x y := by
  intro x
  induction x with
  | leaf a => intro y; cases y <;> simp [Nest.map2, h]
  | nil => intro y; cases y <;> simp [Nest.map2]
  | cons a b iha ihb => intro y; cases y <;> simp [Nest.map2, iha, ihb]

theorem Nest.topo_map {α β : Type} (f : α → β) :
    ∀ t : Nest α, Nest.topo (Nest.map f t) = Nest.topo t := by
  intro t
  induction t with
  | leaf a => rfl
  | nil => rfl
  | cons x y ihx ihy => simp [Nest.topo, Nest.map, ihx, ihy] at ihx ihy ⊢; exact ⟨ihx, ihy⟩

theorem Nest.all_zero_map {α : Type} :
    ∀ t : Nest α, Nest.All (fun u : Tensor => ∀ ix, u ix = 0)
      (Nest.map (fun _ => tzeros) t) := by
  intro t
  induction t with
  | leaf a => exact fun _ => rfl
  | nil => exact trivial
  | cons x y ihx ihy => exact ⟨ihx, ihy⟩

/-- `RunningExpectations` configuration: the sample shape and the tree
of callables (dtype, coerced from integral to floating in the source,
is modelled away by the exact arithmetic). -/
structure RunningExpectations where
  shape : Shape
  callables : Nest (Tensor → Tensor)

/-- `RunningExpectationsState` namedtuple. -/
structure RunningExpectationsState where
  num_samples : ℚ
  expectation : Nest Tensor

/-- `RunningExpectations.initialize()`: zero count and a zero tensor per
leaf of `callables`. -/
def RunningExpectations.initialize (c : RunningExpectations) :
    RunningExpectationsState :=
  { num_samples := 0
    expectation := Nest.map (fun _ => tzeros) c.callables }

/-- The `chunk_n` of `RunningExpectations.update`: 1 when `axis` is
absent, else the sample's extent along `axis` (computed once, before the
per-leaf traversal). -/
def expChunkN (sampleShape : Shape) (axis : Option Nat) : ℚ :=
  match axis with
  | none => 1
  | some k => ((sampleShape.getD k 0 : Nat) : ℚ)

/-- `_update_for_one_fn(old_mean, new_sample, axis, fn, rank)`: unchunked,
`chunk_mean = fn(new_sample)`; chunked along `k`, the source transposes
axis `k` to the front, `tf.map_fn`s `fn` over the `M` slices and
`reduce_mean`s the stacked results along axis 0 — i.e. `chunk_mean` is
the average of `fn` over the `M` slices along `k`.  Then
`new_mean = old_mean + chunk_n * (chunk_mean - old_mean) / new_n`
(the dtype casts are the identity here). -/
def expLeafUpdate (chunk_n new_n : ℚ) (axis : Option Nat) (sampleShape : Shape)
    (x : Tensor) (f : Tensor → Tensor) (old : Tensor) : Tensor :=
  let chunk_mean : Tensor :=
    match axis with
    | none => f x
    | some k => fun ix =>
        (∑ j in Finset.range (sampleShape.getD k 0), f (sliceAt k j x) ix) /
          ((sampleShape.getD k 0 : Nat) : ℚ)
  fun ix => old ix + chunk_n * (chunk_mean ix - old ix) / new_n

/-- `RunningExpectations.update(state, new_sample, axis)`: one shared
`chunk_n`/`new_n`, then the structure-preserving traversal pairing each
callable with its running-mean leaf. -/
def RunningExpectations.update (c : RunningExpectations)
    (st : RunningExpectationsState) (x : Tensor) (sampleShape : Shape)
    (axis : Option Nat) : RunningExpectationsState :=
  let chunk_n := expChunkN sampleShape axis
  let new_n := st.num_samples + chunk_n
  { num_samples := new_n
    expectation :=
      Nest.map2 (expLeafUpdate chunk_n new_n axis sampleShape x)
        c.callables st.expectation }

/-- `RunningExpectations.finalize(state)`: returns `expectation` as-is. -/
def RunningExpectations.finalize (st : RunningExpectationsState) : Nest Tensor :=
  st.expectation

/-- The spec's per-leaf update formula, written from the spec text for
comparison: unchunked `chunk_mean = f(new_sample)`; chunked, the
elementwise average of `f` over the `M` slices along `axis`; merged by
`new_mean = old_mean + chunk_n * (chunk_mean - old_mean) / new_n`. -/
def spec_expLeafUpdate (chunk_n new_n : ℚ) (axis : Option Nat)
    (sampleShape : Shape) (x : Tensor) (f : Tensor → Tensor) (old : Tensor) :
    Tensor :=
  fun ix =>
    old ix +
      chunk_n *
        ((match axis with
          | none => f x ix
          | some k =>
              (∑ j in Finset.range (sampleShape.getD k 0),
                  f (sliceAt k j x) ix) /
                ((sampleShape.getD k 0 : Nat) : ℚ)) - old ix) / new_n

/-- C7: `RunningExpectations.update` advances the count by the shared
`chunk_n` (1 unchunked, the extent along `axis` chunked) and updates
every leaf of `expectation`, paired with its callable, by the spec's
per-leaf rule — `chunk_mean` is `f(new_sample)` or the slice average,
and `new_mean = old_mean + chunk_n * (chunk_mean - old_mean) / new_n`
with `chunk_n` and `new_n` shared by all leaves. -/
theorem C7_expectations_update (c : RunningExpectations)
    (st : RunningExpectationsState) (x : Tensor) (sampleShape : Shape)
    (axis : Option Nat) :
    (c.update st x sampleShape axis).num_samples =
      st.num_samples + expChunkN sampleShape axis ∧
    (c.update st x sampleShape axis).expectation =
      Nest.map2
        (spec_expLeafUpdate (expChunkN sampleShape axis)
          (st.num_samples + expChunkN sampleShape axis) axis sampleShape x)
        c.callables st.expectation := by
  refine ⟨rfl, ?_⟩
  refine Nest.map2_congr (fun f old => ?_) c.callables st.expectation
  funext ix
  cases axis <;> rfl

/-- C8: `RunningExpectations.finalize` returns the `expectation` field
unchanged (no division happens at finalize time), and on the state
produced by `initialize()` with no updates it returns a tree with the
topology of `callables` whose every leaf is the zero tensor. -/
theorem C8_expectations_finalize (c : RunningExpectations)
    (st : RunningExpectationsState) :
    RunningExpectations.finalize st = st.expectation ∧
    Nest.topo (RunningExpectations.finalize c.initialize) =
      Nest.topo c.callables ∧
    Nest.All (fun t : Tensor => ∀ ix, t ix = 0)
      (RunningExpectations.finalize c.initialize) := by
  exact ⟨rfl, Nest.topo_map _ c.callables, Nest.all_zero_map c.callables⟩

end SampleStats
